import Mathlib

/-!
Verification development for the BadWords profanity filter
(src/badwords/check.py, class ProfanityFilter).

Strings are modelled as Lean `String`s (lists of characters); Python sets of
strings as `Finset String`; Python `float` thresholds and similarity ratios as
rationals `ℚ`; the optional parameters of `filter_text` as `Option` values with
Python truthiness made explicit.  The text-processing collaborator
(src/badwords/text_processor.py) is not part of src/, so it is modelled from
the spec further below; the filter itself carries its processor as an opaque
`String → String` field, exactly as `self.text_processor` is used by check.py.
-/

/-- Python whitespace characters as used by `str.split()` / `str.strip()`. -/
def isWs (c : Char) : Bool :=
  c == ' ' || c == '\t' || c == '\n' || c == '\r' || c == '\x0b' || c == '\x0c'

/-- One-pass tokenizer: `acc` holds the characters of the current token in
reverse; a whitespace character closes the current token (if non-empty). -/
def wsTokensAux : List Char → List Char → List (List Char)
  | [], acc => if acc = [] then [] else [acc.reverse]
  | c :: rest, acc =>
    if isWs c then
      if acc = [] then wsTokensAux rest [] else acc.reverse :: wsTokensAux rest []
    else
      wsTokensAux rest (c :: acc)

/-- Tokens of a character list, Python `str.split()` semantics: maximal runs of
non-whitespace characters; leading, trailing and repeated whitespace produce no
empty tokens. -/
def wsTokens (l : List Char) : List (List Char) :=
  wsTokensAux l []

/-- `processed_text.split()` from check.py line 124. -/
def pyTokens (s : String) : List String :=
  (wsTokens s.data).map String.mk

/-- One non-overlapping left-to-right replacement pass, Python
`str.replace` semantics for a non-empty pattern. -/
def replaceCore (pat repl : List Char) : List Char → List Char
  | [] => []
  | c :: rest =>
    if pat ≠ [] ∧ pat.isPrefixOf (c :: rest) then
      repl ++ replaceCore pat repl (List.drop pat.length (c :: rest))
    else
      c :: replaceCore pat repl rest
termination_by l => l.length
decreasing_by
  · rename_i h
    have hp : 0 < pat.length := List.length_pos.mpr h.1
    simp only [List.length_drop, List.length_cons]
    omega
  · simp only [List.length_cons]
    omega

/-- Python `text.replace(old, new)`: every non-overlapping occurrence of `old`
in `text` is replaced by `new`; for the empty pattern Python inserts `new`
before every character and at the end. -/
def pyReplace (s pat repl : String) : String :=
  if pat.data = [] then
    ⟨repl.data ++ List.flatten (s.data.map (fun c => c :: repl.data))⟩
  else
    ⟨replaceCore pat.data repl.data s.data⟩

/-- Python `s * n` for a string `s` and a non-negative integer `n`. -/
def pyRepeat (s : String) (n : Nat) : String :=
  ⟨List.flatten (List.replicate n s.data)⟩

/-! The similarity engine: `difflib.SequenceMatcher(None, a, b).ratio()` as
called from `ProfanityFilter.similar` (check.py line 103).  `ratio` is twice
the total size of the matching blocks divided by the combined length; the
matching blocks are found by the Ratcliff–Obershelf recursion: take the
longest matching block (earliest in `a`, then earliest in `b`, among the
maximal ones), then recurse on the pieces to its left and to its right.
difflib's autojunk heuristic only affects second strings of length ≥ 200 and
is not modelled. -/

/-- Length of the longest common prefix of two character lists. -/
def cpl : List Char → List Char → Nat
  | x :: xs, y :: ys => if x = y then cpl xs ys + 1 else 0
  | _, _ => 0

/-- All triples `(i, j, k)` where `k` is the length of the longest block of
`a` starting at `i` matching a block of `b` starting at `j`, enumerated with
`i` ascending and then `j` ascending. -/
def lmCandidates (a b : List Char) : List (Nat × Nat × Nat) :=
  List.flatten ((List.range (a.length + 1)).map (fun i =>
    (List.range (b.length + 1)).map (fun j =>
      (i, j, cpl (List.drop i a) (List.drop j b)))))

/-- Keep the incumbent unless the challenger is strictly longer: scanning the
candidates in order therefore returns the maximal block that starts earliest
in `a` and then earliest in `b`, difflib's documented tie-break. -/
def lmPick (best c : Nat × Nat × Nat) : Nat × Nat × Nat :=
  if best.2.2 < c.2.2 then c else best

/-- difflib's `find_longest_match` over whole strings (no junk). -/
def find_longest_match (a b : List Char) : Nat × Nat × Nat :=
  (lmCandidates a b).foldl lmPick (0, 0, 0)

theorem cpl_le_left (x y : List Char) : cpl x y ≤ x.length := by
  induction x generalizing y with
  | nil => simp [cpl]
  | cons a xs ih =>
    cases y with
    | nil => simp [cpl]
    | cons b ys =>
      simp only [cpl, List.length_cons]
      split
      · exact Nat.succ_le_succ (ih ys)
      · omega

theorem cpl_le_right (x y : List Char) : cpl x y ≤ y.length := by
  induction x generalizing y with
  | nil => simp [cpl]
  | cons a xs ih =>
    cases y with
    | nil => simp [cpl]
    | cons b ys =>
      simp only [cpl, List.length_cons]
      split
      · exact Nat.succ_le_succ (ih ys)
      · omega

theorem lmCandidates_mem (a b : List Char) (i j k : Nat)
    (hc : (i, j, k) ∈ lmCandidates a b) :
    i ≤ a.length ∧ j ≤ b.length ∧ k = cpl (List.drop i a) (List.drop j b) := by
  simp only [lmCandidates, List.mem_flatten, List.mem_map, List.mem_range] at hc
  obtain ⟨row, ⟨i2, hi2, hrow⟩, hcrow⟩ := hc
  subst hrow
  simp only [List.mem_map, List.mem_range, Prod.mk.injEq] at hcrow
  obtain ⟨j2, hj2, hi, hj, hk⟩ := hcrow
  subst hi
  subst hj
  exact ⟨by omega, by omega, hk.symm⟩

theorem lmCandidates_bound (a b : List Char) (c : Nat × Nat × Nat)
    (hc : c ∈ lmCandidates a b) :
    c.1 + c.2.2 ≤ a.length ∧ c.2.1 + c.2.2 ≤ b.length := by
  obtain ⟨i, j, k⟩ := c
  obtain ⟨hi, hj, hk⟩ := lmCandidates_mem a b i j k hc
  have h1 := cpl_le_left (List.drop i a) (List.drop j b)
  have h2 := cpl_le_right (List.drop i a) (List.drop j b)
  rw [← hk] at h1 h2
  simp only [List.length_drop] at h1 h2
  simp only []
  omega

theorem foldl_lmPick_prop (P : Nat × Nat × Nat → Prop) (l : List (Nat × Nat × Nat))
    (acc : Nat × Nat × Nat) (hacc : P acc) (hl : ∀ c ∈ l, P c) :
    P (l.foldl lmPick acc) := by
  induction l generalizing acc with
  | nil => exact hacc
  | cons c rest ih =>
    simp only [List.foldl_cons]
    apply ih
    · unfold lmPick
      split
      · exact hl c (List.mem_cons_self c rest)
      · exact hacc
    · intro d hd
      exact hl d (List.mem_cons_of_mem c hd)

theorem find_longest_match_bound (a b : List Char) :
    (find_longest_match a b).2.2 = 0 ∨
      ((find_longest_match a b).1 + (find_longest_match a b).2.2 ≤ a.length ∧
       (find_longest_match a b).2.1 + (find_longest_match a b).2.2 ≤ b.length) := by
  unfold find_longest_match
  exact foldl_lmPick_prop
    (fun m => m.2.2 = 0 ∨ (m.1 + m.2.2 ≤ a.length ∧ m.2.1 + m.2.2 ≤ b.length))
    (lmCandidates a b) (0, 0, 0) (Or.inl rfl)
    (fun c hc => Or.inr (lmCandidates_bound a b c hc))

/-- Total number of matched characters over difflib's matching blocks. -/
def matchTotal (a b : List Char) : Nat :=
  if hk : (find_longest_match a b).2.2 = 0 then 0
  else
    matchTotal (List.take (find_longest_match a b).1 a)
               (List.take (find_longest_match a b).2.1 b)
    + (find_longest_match a b).2.2
    + matchTotal (List.drop ((find_longest_match a b).1 + (find_longest_match a b).2.2) a)
                 (List.drop ((find_longest_match a b).2.1 + (find_longest_match a b).2.2) b)
termination_by a.length
decreasing_by
  · rcases find_longest_match_bound a b with h | h
    · exact absurd h hk
    · simp only [List.length_take]
      omega
  · rcases find_longest_match_bound a b with h | h
    · exact absurd h hk
    · simp only [List.length_drop]
      omega

/-- difflib's `ratio`: `2 * M / T` where `M` is the number of matched
characters and `T` the combined length; `1` when both strings are empty. -/
def ratioVal (a b : List Char) : ℚ :=
  if a.length + b.length = 0 then 1
  else 2 * (matchTotal a b : ℚ) / ((a.length : ℚ) + (b.length : ℚ))

/-- `ProfanityFilter.similar` (check.py lines 96–103):
`SequenceMatcher(None, a, b).ratio()`.  The method reads nothing from `self`,
so it is embedded as a plain function. -/
def similar (a b : String) : ℚ :=
  ratioVal a.data b.data

/-! The filter state and its operations. -/

/-- The mutable state of a `ProfanityFilter` instance: its text-processing
collaborator (`self.text_processor`), the list of discovered or restricted
language codes (`self.language_files`), and the normalized bad-word corpus
(`self.bad_words`, a Python set). -/
structure ProfanityFilter where
  text_processor : String → String
  language_files : List String
  bad_words : Finset String

/-- Result of `filter_text`: Python returns either a `bool` or a `str`. -/
inductive FilterResult where
  | flag : Bool → FilterResult
  | filtered : String → FilterResult
deriving DecidableEq

/-- `ProfanityFilter.add_words` (check.py lines 88–94): normalize each word
with the text processor and insert it into the bad-words set. -/
def add_words (self : ProfanityFilter) (words : List String) : ProfanityFilter :=
  { self with bad_words := self.bad_words ∪ (words.map self.text_processor).toFinset }

/-- Lines 119–120 of check.py: `if not match_threshold: match_threshold = 1`.
Python truthiness: both an absent argument and a threshold of `0` become `1`. -/
def effThreshold (t : Option ℚ) : ℚ :=
  match t with
  | none => 1
  | some v => if v = 0 then 1 else v

/-- The per-match return of the loop body (check.py lines 129–131 and
137–139): with a truthy `replace_character` return the original text with the
matched (normalized) token replaced throughout, otherwise return `True`.
Python truthiness: an empty replacement string counts as absent. -/
def replaceOrTrue (text word : String) (rc : Option String) : FilterResult :=
  match rc with
  | some r => if r = "" then .flag true else .filtered (pyReplace text word (pyRepeat r word.length))
  | none => .flag true

/-- The `for word in words` loop of check.py lines 126–139: exact membership
first, then — only when `0 < match_threshold < 1` — a scan of the corpus for a
similarity ratio strictly above the threshold. -/
def checkTokens (bad_words : Finset String) (mt : ℚ) (text : String)
    (rc : Option String) : List String → FilterResult
  | [] => .flag false
  | word :: rest =>
    if word ∈ bad_words then
      replaceOrTrue text word rc
    else if 0 < mt ∧ mt < 1 ∧ ∃ b ∈ bad_words, mt < similar word b then
      replaceOrTrue text word rc
    else
      checkTokens bad_words mt text rc rest

/-- `ProfanityFilter.filter_text` (check.py lines 105–141): default the
threshold, normalize the input text, split it into whitespace-delimited
tokens, and run the matching loop.  The embedding is a total function: the
source body raises nothing. -/
def filter_text (self : ProfanityFilter) (text : String)
    (match_threshold : Option ℚ) (replace_character : Option String) : FilterResult :=
  checkTokens self.bad_words (effThreshold match_threshold) text replace_character
    (pyTokens (self.text_processor text))

/-- `filter_text` with the state of `self` threaded explicitly: the source
method assigns no attribute of `self`, so the outgoing state is the incoming
one. -/
def filter_text_st (self : ProfanityFilter) (text : String)
    (match_threshold : Option ℚ) (replace_character : Option String) :
    FilterResult × ProfanityFilter :=
  (filter_text self text match_threshold replace_character, self)

/-- `ProfanityFilter.get_all_languages` (check.py lines 143–148). -/
def get_all_languages (self : ProfanityFilter) : List String :=
  self.language_files

/-- A token is flagged by the loop body: exact corpus membership, or — with
the fuzzy branch enabled — some corpus entry with ratio above the threshold. -/
def tokenMatch (bw : Finset String) (mt : ℚ) (w : String) : Prop :=
  w ∈ bw ∨ (0 < mt ∧ mt < 1 ∧ ∃ b ∈ bw, mt < similar w b)

instance (bw : Finset String) (mt : ℚ) (w : String) : Decidable (tokenMatch bw mt w) :=
  inferInstanceAs (Decidable (w ∈ bw ∨ (0 < mt ∧ mt < 1 ∧ ∃ b ∈ bw, mt < similar w b)))

/-- The first token of the list flagged by the loop, if any. -/
def firstMatch (bw : Finset String) (mt : ℚ) : List String → Option String
  | [] => none
  | w :: rest => if tokenMatch bw mt w then some w else firstMatch bw mt rest

/-! The text-processing collaborator.  src/ contains only check.py; the
`TextProcessor` it instantiates (src/badwords/text_processor.py) is absent, so
the normalizer below is modelled from the spec. -/

/-- A finite character-substitution table applied pointwise: the first pair
whose key equals the character supplies the replacement, otherwise the
character is unchanged. -/
def applyTable (t : List (Char × Char)) (c : Char) : Char :=
  match t.find? (fun p => p.1 == c) with
  | some p => p.2
  | none => c

/-- ASCII case-folding table for the basic-normalization capability. -/
def lowerTable : List (Char × Char) :=
  [('A', 'a'), ('B', 'b'), ('C', 'c'), ('D', 'd'), ('E', 'e'), ('F', 'f'),
   ('G', 'g'), ('H', 'h'), ('I', 'i'), ('J', 'j'), ('K', 'k'), ('L', 'l'),
   ('M', 'm'), ('N', 'n'), ('O', 'o'), ('P', 'p'), ('Q', 'q'), ('R', 'r'),
   ('S', 's'), ('T', 't'), ('U', 'u'), ('V', 'v'), ('W', 'w'), ('X', 'x'),
   ('Y', 'y'), ('Z', 'z')]

/-- Transliteration capability: a representative table mapping non-Latin
(here Greek) letters to canonical Latin letters; the spec fixes only the
capability, not the exhaustive mapping. -/
def translitTable : List (Char × Char) :=
  [('α', 'a'), ('β', 'b'), ('ε', 'e'), ('ο', 'o')]

/-- Homoglyph-replacement capability: visually similar characters (Cyrillic
letterforms, digit and symbol look-alikes) mapped to one canonical Latin
character. -/
def homoglyphTable : List (Char × Char) :=
  [('а', 'a'), ('е', 'e'), ('о', 'o'), ('с', 'c'), ('0', 'o'), ('@', 'a'), ('$', 's')]

/-- Diacritic-removal table used by the aggressive-normalization capability. -/
def diacriticTable : List (Char × Char) :=
  [('é', 'e'), ('è', 'e'), ('à', 'a'), ('á', 'a'), ('ü', 'u'), ('ö', 'o'), ('ç', 'c')]

/-- Punctuation stripped by aggressive normalization. -/
def isPunct (c : Char) : Bool :=
  c == '.' || c == ',' || c == '!' || c == '?' || c == ';' || c == ':' ||
  c == '-' || c == '_' || c == '"' || c == '(' || c == ')' || c == '*' ||
  c == '#' || c == '%' || c == '&' || c == '+' || c == '/' || c == '~'

/-- Characters surviving the aggressive punctuation/spacing strip. -/
def keepChar (c : Char) : Bool :=
  !(isWs c) && !(isPunct c)

/-- A canonical character: fixed by every substitution table and never
stripped.  Every table output is canonical, which is what makes the whole
pipeline idempotent. -/
def canonChar (c : Char) : Bool :=
  applyTable lowerTable c == c && applyTable translitTable c == c &&
  applyTable homoglyphTable c == c && applyTable diacriticTable c == c &&
  keepChar c

/-- All replacements of a table are canonical characters. -/
def tableGood (t : List (Char × Char)) : Prop :=
  ∀ p ∈ t, canonChar p.2 = true

/-- Python-style `strip`: drop leading and trailing whitespace. -/
def trimWs (l : List Char) : List Char :=
  ((List.dropWhile isWs l).reverse.dropWhile isWs).reverse

/-- Repeated-character collapsing of aggressive normalization:
adjacent equal characters are merged (so "baaad" becomes "bad"). -/
def collapseAdj : List Char → List Char
  | [] => []
  | [c] => [c]
  | a :: b :: rest =>
    if a = b then collapseAdj (b :: rest) else a :: collapseAdj (b :: rest)

/-- Modelled from the spec: the four independent capability toggles of the
text-processor configuration (src/badwords/text_processor.py is missing from
src/; field names follow the keyword arguments of `ProfanityFilter.init`). -/
structure TextProcessor where
  processing_normalize_text : Bool
  processing_aggressive_normalize : Bool
  processing_transliterate : Bool
  processing_replace_homoglyphs : Bool

/-- Basic normalization: case folding and whitespace trimming. -/
def normStage (enabled : Bool) (l : List Char) : List Char :=
  if enabled then trimWs (l.map (applyTable lowerTable)) else l

/-- Transliteration stage. -/
def translitStage (enabled : Bool) (l : List Char) : List Char :=
  if enabled then l.map (applyTable translitTable) else l

/-- Homoglyph-replacement stage. -/
def homoglyphStage (enabled : Bool) (l : List Char) : List Char :=
  if enabled then l.map (applyTable homoglyphTable) else l

/-- Aggressive normalization: diacritic removal, punctuation/spacing
stripping, repeated-character collapsing (defeats "b a d" and "baaad"). -/
def aggressiveStage (enabled : Bool) (l : List Char) : List Char :=
  if enabled then collapseAdj (List.filter keepChar (l.map (applyTable diacriticTable)))
  else l

/-- Modelled from the spec: `TextProcessor.process_text` on character lists.
The enabled capabilities run in a fixed order, with transliteration and
homoglyph replacement before the aggressive strip as §4.1 requires. -/
def processList (tp : TextProcessor) (l : List Char) : List Char :=
  aggressiveStage tp.processing_aggressive_normalize
    (homoglyphStage tp.processing_replace_homoglyphs
      (translitStage tp.processing_transliterate
        (normStage tp.processing_normalize_text l)))

/-- Modelled from the spec: `TextProcessor.process_text`, the deterministic
pure normalizer applied both to corpus words and to query text. -/
def process_text (tp : TextProcessor) (s : String) : String :=
  ⟨processList tp s.data⟩

/-- The default configuration of `ProfanityFilter.init`: every capability on. -/
def defaultTP : TextProcessor :=
  ⟨true, true, true, true⟩

/-- A basic-normalization-only configuration (used by concrete instances). -/
def tpNorm : TextProcessor :=
  ⟨true, false, false, false⟩

/-! Construction (check.py lines 21–94). -/

/-- The exception raised by `ProfanityFilter.init` for an unknown language
code (src/badwords/exceptions.py, imported by check.py). -/
inductive NotSupportedLanguage where
  | mk : NotSupportedLanguage
deriving DecidableEq

/-- Python `str.lower()` (ASCII model, consistent with the case-folding
table). -/
def pyLower (s : String) : String :=
  ⟨s.data.map (applyTable lowerTable)⟩

/-- Python `str.strip()`. -/
def pyStrip (s : String) : String :=
  ⟨trimWs s.data⟩

/-- Python `str.isalpha()`: non-empty and all letters. -/
def pyIsAlpha (s : String) : Bool :=
  !s.data.isEmpty && s.data.all Char.isAlpha

/-- `ProfanityFilter.initialize_bad_words` (check.py lines 63–86): for each
language code — sanitized by lowercasing and stripping, skipped unless
alphabetic — read its word file and add every processed word to the set.  The
word files live outside the program; `load` returning `none` covers a missing
file as well as any read error swallowed by the `except` clause (the language
is skipped either way). -/
def initialize_bad_words (language_files : List String)
    (load : String → Option (List String)) (proc : String → String) : Finset String :=
  language_files.foldl
    (fun acc lang0 =>
      let lang := pyStrip (pyLower lang0)
      if pyIsAlpha lang = false then acc
      else
        match load lang with
        | none => acc
        | some words => acc ∪ (words.map proc).toFinset)
    ∅

/-- `ProfanityFilter.init` (check.py lines 21–54): build the processor, take
the discovered language list, restrict it when a (truthy, hence non-empty)
language list is passed — raising `NotSupportedLanguage` unless every
requested code is known — then build the corpus from the resulting list.  The
resource directory scan (`initialize_language_files`) is external input,
passed as `discovered`. -/
def init (discovered : List String) (languages : Option (List String))
    (proc : String → String) (load : String → Option (List String)) :
    Except NotSupportedLanguage ProfanityFilter :=
  match languages with
  | some ls =>
    if ls = [] then
      Except.ok ⟨proc, discovered, initialize_bad_words discovered load proc⟩
    else if ∀ i ∈ ls, i ∈ discovered then
      Except.ok ⟨proc, ls, initialize_bad_words ls load proc⟩
    else
      Except.error NotSupportedLanguage.mk
  | none =>
    Except.ok ⟨proc, discovered, initialize_bad_words discovered load proc⟩

/-! A client-visible call history (used to state that the corpus never
shrinks across any sequence of calls). -/

/-- One mutating-or-querying call on a live filter. -/
inductive FilterOp where
  | addCall : List String → FilterOp
  | queryCall : String → Option ℚ → Option String → FilterOp

/-- Apply one call to the filter state. -/
def applyOp (f : ProfanityFilter) : FilterOp → ProfanityFilter
  | .addCall ws => add_words f ws
  | .queryCall text mt rc => (filter_text_st f text mt rc).2

/-- Apply a history of calls in order. -/
def applyOps (f : ProfanityFilter) (ops : List FilterOp) : ProfanityFilter :=
  ops.foldl applyOp f

/-- A concrete filter with the default (all-capabilities) processor and an
empty corpus. -/
def pf0 : ProfanityFilter :=
  ⟨process_text defaultTP, [], ∅⟩

/-- A concrete filter with the basic-normalization-only processor and the
corpus containing the single normalized word "badword". -/
def pfNorm : ProfanityFilter :=
  ⟨process_text tpNorm, ["en"], {"badword"}⟩

/-! Properties of the similarity ratio. -/

theorem cpl_self (x : List Char) : cpl x x = x.length := by
  induction x with
  | nil => rfl
  | cons a xs ih => simp [cpl, ih]

theorem foldl_lmPick_stable (l : List (Nat × Nat × Nat)) (acc : Nat × Nat × Nat)
    (h : ∀ c ∈ l, c.2.2 ≤ acc.2.2) : l.foldl lmPick acc = acc := by
  induction l with
  | nil => rfl
  | cons c rest ih =>
    simp only [List.foldl_cons]
    have hc : lmPick acc c = acc := by
      unfold lmPick
      have := h c (List.mem_cons_self c rest)
      split <;> first | omega | rfl
    rw [hc]
    exact ih (fun d hd => h d (List.mem_cons_of_mem c hd))

theorem foldl_lmPick_acc_le (l : List (Nat × Nat × Nat)) (acc : Nat × Nat × Nat) :
    acc.2.2 ≤ (l.foldl lmPick acc).2.2 := by
  induction l generalizing acc with
  | nil => exact Nat.le_refl _
  | cons c rest ih =>
    simp only [List.foldl_cons]
    calc acc.2.2 ≤ (lmPick acc c).2.2 := by
          unfold lmPick
          split <;> omega
      _ ≤ _ := ih (lmPick acc c)

theorem foldl_lmPick_mem_le (l : List (Nat × Nat × Nat)) (acc c : Nat × Nat × Nat)
    (hc : c ∈ l) : c.2.2 ≤ (l.foldl lmPick acc).2.2 := by
  induction l generalizing acc with
  | nil => cases hc
  | cons d rest ih =>
    simp only [List.foldl_cons]
    rcases List.mem_cons.mp hc with h | h
    · subst h
      calc c.2.2 ≤ (lmPick acc c).2.2 := by
            unfold lmPick
            split <;> omega
        _ ≤ _ := foldl_lmPick_acc_le rest (lmPick acc c)
    · exact ih (lmPick acc d) h

theorem lmCandidates_self_mem (a b : List Char) (i j : Nat)
    (hi : i ≤ a.length) (hj : j ≤ b.length) :
    (i, j, cpl (List.drop i a) (List.drop j b)) ∈ lmCandidates a b := by
  simp only [lmCandidates, List.mem_flatten, List.mem_map, List.mem_range]
  exact ⟨_, ⟨i, by omega, rfl⟩, by
    simp only [List.mem_map, List.mem_range]
    exact ⟨j, by omega, rfl⟩⟩

theorem lmCandidates_k_le (a b : List Char) (c : Nat × Nat × Nat)
    (hc : c ∈ lmCandidates a b) : c.2.2 ≤ a.length := by
  have := lmCandidates_bound a b c hc
  omega

theorem find_longest_match_self (a : List Char) :
    find_longest_match a a = (0, 0, a.length) := by
  cases ha : a.length with
  | zero =>
    have hnil : a = [] := List.length_eq_zero.mp ha
    subst hnil
    rfl
  | succ n =>
    have hk : (find_longest_match a a).2.2 = a.length := by
      apply Nat.le_antisymm
      · unfold find_longest_match
        have : ∀ c ∈ lmCandidates a a, c.2.2 ≤ a.length :=
          fun c hc => lmCandidates_k_le a a c hc
        exact foldl_lmPick_prop (fun m => m.2.2 ≤ a.length) _ _ (Nat.zero_le _) this
      · have hmem := lmCandidates_self_mem a a 0 0 (Nat.zero_le _) (Nat.zero_le _)
        have := foldl_lmPick_mem_le (lmCandidates a a) (0, 0, 0) _ hmem
        simpa [cpl_self] using this
    rcases find_longest_match_bound a a with h | h
    · omega
    · have h1 : (find_longest_match a a).1 = 0 := by omega
      have h2 : (find_longest_match a a).2.1 = 0 := by omega
      have : find_longest_match a a =
          ((find_longest_match a a).1, (find_longest_match a a).2.1,
           (find_longest_match a a).2.2) := rfl
      rw [this, h1, h2, hk, ha]

theorem matchTotal_nil : matchTotal [] [] = 0 := by
  unfold matchTotal
  simp [find_longest_match_self]

theorem matchTotal_self (a : List Char) : matchTotal a a = a.length := by
  unfold matchTotal
  rw [find_longest_match_self]
  by_cases ha : a.length = 0
  · simp [ha]
  · simp only [ha, dite_false]
    simp only [List.take_zero, Nat.zero_add, List.drop_length]
    rw [matchTotal_nil]
    omega

theorem similar_self (w : String) : similar w w = 1 := by
  unfold similar ratioVal
  rw [matchTotal_self]
  split
  · rfl
  · rename_i hns
    have hn : (w.data.length : ℚ) ≠ 0 := by
      have : w.data.length ≠ 0 := by omega
      exact_mod_cast this
    rw [show ((w.data.length : ℚ) + w.data.length) = 2 * w.data.length by ring]
    exact div_self (mul_ne_zero two_ne_zero hn)

/-! The matching loop, related to `firstMatch`. -/

theorem checkTokens_eq (bw : Finset String) (mt : ℚ) (text : String)
    (rc : Option String) (ws : List String) :
    checkTokens bw mt text rc ws =
      match firstMatch bw mt ws with
      | some w => replaceOrTrue text w rc
      | none => FilterResult.flag false := by
  induction ws with
  | nil => rfl
  | cons w rest ih =>
    by_cases h1 : w ∈ bw
    · simp [checkTokens, firstMatch, tokenMatch, h1]
    · by_cases h2 : 0 < mt ∧ mt < 1 ∧ ∃ b ∈ bw, mt < similar w b
      · simp [checkTokens, firstMatch, tokenMatch, h1, h2]
      · simp [checkTokens, firstMatch, tokenMatch, h1, h2, ih]

theorem firstMatch_eq_none (bw : Finset String) (mt : ℚ) (ws : List String) :
    firstMatch bw mt ws = none ↔ ∀ w ∈ ws, ¬ tokenMatch bw mt w := by
  induction ws with
  | nil => simp [firstMatch]
  | cons w rest ih =>
    by_cases h : tokenMatch bw mt w
    · simp [firstMatch, h]
    · simp [firstMatch, h, ih]

theorem firstMatch_some_mem (bw : Finset String) (mt : ℚ) (ws : List String)
    (w : String) (h : firstMatch bw mt ws = some w) :
    w ∈ ws ∧ tokenMatch bw mt w := by
  induction ws with
  | nil => cases h
  | cons v rest ih =>
    by_cases hv : tokenMatch bw mt v
    · simp only [firstMatch, hv, if_pos, Option.some.injEq] at h
      subst h
      exact ⟨List.mem_cons_self v rest, hv⟩
    · simp only [firstMatch, hv, if_neg, not_false_iff] at h
      obtain ⟨hmem, hmatch⟩ := ih h
      exact ⟨List.mem_cons_of_mem v hmem, hmatch⟩

theorem filter_text_flag_true_iff (f : ProfanityFilter) (text : String) (t : Option ℚ) :
    filter_text f text t none = FilterResult.flag true ↔
      ∃ w ∈ pyTokens (f.text_processor text), tokenMatch f.bad_words (effThreshold t) w := by
  unfold filter_text
  rw [checkTokens_eq]
  cases hfm : firstMatch f.bad_words (effThreshold t) (pyTokens (f.text_processor text)) with
  | none =>
    simp only []
    constructor
    · intro h
      cases h
    · intro ⟨w, hw, hmatch⟩
      exact absurd hmatch ((firstMatch_eq_none _ _ _).mp hfm w hw)
  | some w =>
    simp only [replaceOrTrue]
    constructor
    · intro _
      obtain ⟨hmem, hmatch⟩ := firstMatch_some_mem _ _ _ _ hfm
      exact ⟨w, hmem, hmatch⟩
    · intro _
      trivial

theorem tokenMatch_exact_iff (bw : Finset String) (w : String) :
    tokenMatch bw 1 w ↔ w ∈ bw := by
  unfold tokenMatch
  constructor
  · rintro (h | ⟨_, h1, _⟩)
    · exact h
    · exact absurd h1 (lt_irrefl 1)
  · exact Or.inl

theorem tokenMatch_fuzzy_iff (bw : Finset String) (mt : ℚ) (w : String)
    (h0 : 0 < mt) (h1 : mt < 1) :
    tokenMatch bw mt w ↔ ∃ b ∈ bw, mt < similar w b := by
  unfold tokenMatch
  constructor
  · rintro (h | ⟨_, _, hb⟩)
    · exact ⟨w, h, by rw [similar_self]; exact h1⟩
    · exact hb
  · intro hb
    exact Or.inr ⟨h0, h1, hb⟩

theorem tokenMatch_mono (bw bw2 : Finset String) (mt : ℚ) (w : String)
    (hsub : bw ⊆ bw2) (h : tokenMatch bw mt w) : tokenMatch bw2 mt w := by
  unfold tokenMatch at h ⊢
  rcases h with h | ⟨ha, hb, b, hmem, hsim⟩
  · exact Or.inl (hsub h)
  · exact Or.inr ⟨ha, hb, b, hsub hmem, hsim⟩

theorem checkTokens_no_fuzzy (bw : Finset String) (mt1 mt2 : ℚ) (text : String)
    (rc : Option String) (ws : List String)
    (hm1 : ¬(0 < mt1 ∧ mt1 < 1)) (hm2 : ¬(0 < mt2 ∧ mt2 < 1)) :
    checkTokens bw mt1 text rc ws = checkTokens bw mt2 text rc ws := by
  induction ws with
  | nil => rfl
  | cons w rest ih =>
    have hc1 : ¬(0 < mt1 ∧ mt1 < 1 ∧ ∃ b ∈ bw, mt1 < similar w b) := by
      rintro ⟨ha, hb, _⟩
      exact hm1 ⟨ha, hb⟩
    have hc2 : ¬(0 < mt2 ∧ mt2 < 1 ∧ ∃ b ∈ bw, mt2 < similar w b) := by
      rintro ⟨ha, hb, _⟩
      exact hm2 ⟨ha, hb⟩
    by_cases h1 : w ∈ bw
    · simp [checkTokens, h1]
    · simp [checkTokens, h1, hc1, hc2, ih]

/-- C1: for every text in which some whitespace-delimited token of the
normalized text matches the corpus (exactly, or fuzzily when the effective
threshold lies strictly between 0 and 1) — witnessed by `firstMatch` returning
the first such token `w` — `filter_text` with a (truthy) `replace_character`
returns the original, non-normalized text with every literal occurrence of the
matched normalized token replaced by the replacement string repeated to the
token's length, and with no `replace_character` it returns the boolean
`true`. -/
theorem c1_replace_on_match (f : ProfanityFilter) (text : String) (t : Option ℚ)
    (rc w : String) (hrc : rc ≠ "")
    (h : firstMatch f.bad_words (effThreshold t) (pyTokens (f.text_processor text)) = some w) :
    filter_text f text t (some rc) =
      FilterResult.filtered (pyReplace text w (pyRepeat rc (String.length w))) ∧
    filter_text f text t none = FilterResult.flag true := by
  unfold filter_text
  rw [checkTokens_eq, checkTokens_eq, h]
  simp [replaceOrTrue, hrc]

theorem c1_replace_on_match_witness :
    (("*" : String) ≠ "" ∧
     firstMatch pfNorm.bad_words (effThreshold none)
       (pyTokens (pfNorm.text_processor "this is a badword here")) = some "badword") ∧
    (filter_text pfNorm "this is a badword here" none (some "*") =
       FilterResult.filtered
         (pyReplace "this is a badword here" "badword" (pyRepeat "*" (String.length "badword"))) ∧
     filter_text pfNorm "this is a badword here" none none = FilterResult.flag true) :=
  ⟨⟨by decide, by decide⟩,
   c1_replace_on_match pfNorm "this is a badword here" none "*" "badword" (by decide) (by decide)⟩

/-- C2: with the threshold unset, `0`, or `1` (effective threshold 1), a
token is flagged exactly when it is an exact post-normalization member of the
corpus — a near-miss with ratio below 1 is not flagged; with a threshold
strictly between 0 and 1, the text is flagged exactly when some token has a
corpus entry whose SequenceMatcher-style similarity ratio strictly exceeds the
threshold. -/
theorem c2_threshold_boundary (f : ProfanityFilter) (text : String) (t : Option ℚ)
    (mt : ℚ) (ht : t = none ∨ t = some 0 ∨ t = some 1) (h0 : 0 < mt) (h1 : mt < 1) :
    (filter_text f text t none = FilterResult.flag true ↔
       ∃ w ∈ pyTokens (f.text_processor text), w ∈ f.bad_words) ∧
    (filter_text f text (some mt) none = FilterResult.flag true ↔
       ∃ w ∈ pyTokens (f.text_processor text), ∃ b ∈ f.bad_words, similar w b > mt) := by
  constructor
  · have heff : effThreshold t = 1 := by
      rcases ht with h | h | h <;> subst h <;> simp [effThreshold]
    rw [filter_text_flag_true_iff, heff]
    constructor
    · rintro ⟨w, hw, hm⟩
      exact ⟨w, hw, (tokenMatch_exact_iff f.bad_words w).mp hm⟩
    · rintro ⟨w, hw, hm⟩
      exact ⟨w, hw, (tokenMatch_exact_iff f.bad_words w).mpr hm⟩
  · have heff : effThreshold (some mt) = mt := by
      simp [effThreshold, ne_of_gt h0]
    rw [filter_text_flag_true_iff, heff]
    constructor
    · rintro ⟨w, hw, hm⟩
      exact ⟨w, hw, (tokenMatch_fuzzy_iff f.bad_words mt w h0 h1).mp hm⟩
    · rintro ⟨w, hw, hm⟩
      exact ⟨w, hw, (tokenMatch_fuzzy_iff f.bad_words mt w h0 h1).mpr hm⟩

theorem c2_threshold_boundary_witness :
    (((none : Option ℚ) = none ∨ (none : Option ℚ) = some 0 ∨ (none : Option ℚ) = some 1) ∧
     (0 : ℚ) < 1/2 ∧ (1/2 : ℚ) < 1) ∧
    ((filter_text pfNorm "a badwort here" none none = FilterResult.flag true ↔
        ∃ w ∈ pyTokens (pfNorm.text_processor "a badwort here"), w ∈ pfNorm.bad_words) ∧
     (filter_text pfNorm "a badwort here" (some (1/2)) none = FilterResult.flag true ↔
        ∃ w ∈ pyTokens (pfNorm.text_processor "a badwort here"),
          ∃ b ∈ pfNorm.bad_words, similar w b > 1/2)) :=
  ⟨⟨Or.inl rfl, by norm_num, by norm_num⟩,
   c2_threshold_boundary pfNorm "a badwort here" none (1/2) (Or.inl rfl)
     (by norm_num) (by norm_num)⟩

/-- C5: `filter_text` is a total function (the embedding returns a value for
every text, threshold and replacement argument), and whenever no token of the
normalized text matches the corpus under the effective threshold it returns
the boolean `false` — never a string — for every argument combination. -/
theorem c5_no_match_false (f : ProfanityFilter) (text : String) (t : Option ℚ)
    (rc : Option String)
    (h : ∀ w ∈ pyTokens (f.text_processor text),
      ¬ tokenMatch f.bad_words (effThreshold t) w) :
    filter_text f text t rc = FilterResult.flag false := by
  unfold filter_text
  rw [checkTokens_eq, (firstMatch_eq_none _ _ _).mpr h]

theorem c5_no_match_false_witness :
    (∀ w ∈ pyTokens (pfNorm.text_processor "totally clean text"),
       ¬ tokenMatch pfNorm.bad_words (effThreshold none) w) ∧
    filter_text pfNorm "totally clean text" none (some "*") = FilterResult.flag false :=
  ⟨by decide, c5_no_match_false pfNorm "totally clean text" none (some "*") (by decide)⟩

/-- C6: a threshold of exactly 0 or a negative threshold behaves identically
to exact-match-only mode (the unset default): the fuzzy branch is disabled
and only exact corpus membership can flag a token.  Python's `not 0` makes a
zero threshold become 1; a negative threshold fails the `0 < t < 1` guard. -/
theorem c6_nonpositive_threshold (f : ProfanityFilter) (text : String) (t : ℚ)
    (rc : Option String) (h : t ≤ 0) :
    filter_text f text (some t) rc = filter_text f text none rc := by
  unfold filter_text
  by_cases h0 : t = 0
  · subst h0
    simp [effThreshold]
  · have heff : effThreshold (some t) = t := by simp [effThreshold, h0]
    have heff2 : effThreshold none = 1 := rfl
    rw [heff, heff2]
    apply checkTokens_no_fuzzy
    · rintro ⟨ha, _⟩
      exact absurd (lt_of_lt_of_le ha h) (lt_irrefl 0)
    · rintro ⟨_, hb⟩
      exact absurd hb (lt_irrefl 1)

theorem c6_nonpositive_threshold_witness :
    ((-1 : ℚ) ≤ 0) ∧
    filter_text pfNorm "a badword" (some (-1)) none = filter_text pfNorm "a badword" none none :=
  ⟨by norm_num, c6_nonpositive_threshold pfNorm "a badword" (-1) none (by norm_num)⟩

/-- C9: `filter_text` mutates no filter state: the source method assigns no
attribute of `self`, so the state-threaded embedding returns the corpus, the
language list and the text-processor configuration unchanged for every
argument combination. -/
theorem c9_filter_text_frame (f : ProfanityFilter) (text : String) (t : Option ℚ)
    (rc : Option String) :
    (filter_text_st f text t rc).2.bad_words = f.bad_words ∧
    (filter_text_st f text t rc).2.language_files = f.language_files ∧
    (filter_text_st f text t rc).2.text_processor = f.text_processor :=
  ⟨rfl, rfl, rfl⟩

/-- C10: when the normalized text splits into no whitespace-delimited tokens
(for instance the empty string, or whitespace-only text under a
whitespace-preserving normalizer), `filter_text` returns `false` regardless of
the threshold and replacement arguments. -/
theorem c10_no_tokens_false (f : ProfanityFilter) (text : String) (t : Option ℚ)
    (rc : Option String) (h : pyTokens (f.text_processor text) = []) :
    filter_text f text t rc = FilterResult.flag false := by
  unfold filter_text
  rw [h]
  rfl

theorem c10_no_tokens_false_witness :
    pyTokens (pfNorm.text_processor "   ") = [] ∧
    filter_text pfNorm "   " (some (1/2)) (some "*") = FilterResult.flag false :=
  ⟨by decide, c10_no_tokens_false pfNorm "   " (some (1/2)) (some "*") (by decide)⟩

/-- C3-counterexample: the claim fails for the empty string: after
`add_words([""])` the corpus contains the processed empty word, but
`filter_text("")` splits the normalized text into no tokens and returns
`false`, not `true`. -/
theorem c3_counterexample :
    ¬ (filter_text (add_words pf0 [""]) "" none none = FilterResult.flag true) := by
  decide

/-- C3 (amended): for every word `w` whose processed form is a single
whitespace-free token (the processed text splits to exactly that one token),
`filter_text(w)` returns `true` after `add_words([w])`; and `filter_text(v)`
(boolean mode) never turns from `true` to `false` after `add_words([w])`, for
any `v` and threshold — the corpus only grows. -/
theorem c3_add_words_monotone (f : ProfanityFilter) (w v : String) (mt : Option ℚ)
    (hw : pyTokens (f.text_processor w) = [f.text_processor w]) :
    filter_text (add_words f [w]) w none none = FilterResult.flag true ∧
    (filter_text f v mt none = FilterResult.flag true →
      filter_text (add_words f [w]) v mt none = FilterResult.flag true) := by
  constructor
  · rw [filter_text_flag_true_iff]
    refine ⟨f.text_processor w, ?_, Or.inl ?_⟩
    · show f.text_processor w ∈ pyTokens (f.text_processor w)
      rw [hw]
      exact List.mem_singleton.mpr rfl
    · show f.text_processor w ∈ f.bad_words ∪ (List.map f.text_processor [w]).toFinset
      apply Finset.mem_union_right
      simp
  · intro h
    rw [filter_text_flag_true_iff] at h ⊢
    obtain ⟨tok, htok, hm⟩ := h
    exact ⟨tok, htok,
      tokenMatch_mono f.bad_words (add_words f [w]).bad_words _ tok
        Finset.subset_union_left hm⟩

theorem c3_add_words_monotone_witness :
    pyTokens (pfNorm.text_processor "badword") = [pfNorm.text_processor "badword"] ∧
    (filter_text (add_words pfNorm ["badword"]) "badword" none none = FilterResult.flag true ∧
     (filter_text pfNorm "a badword here" none none = FilterResult.flag true →
       filter_text (add_words pfNorm ["badword"]) "a badword here" none none =
         FilterResult.flag true)) :=
  ⟨by decide, c3_add_words_monotone pfNorm "badword" "a badword here" none (by decide)⟩

/-- C4-counterexample: the claim fails for the explicit empty language list:
Python's truthiness test `if languages:` skips the restriction entirely, so
the constructed filter keeps the full discovered list `["en"]` instead of
being restricted to exactly the requested (empty) list. -/
theorem c4_counterexample :
    (init ["en"] (some []) (process_text defaultTP) (fun _ => none)).map
        ProfanityFilter.language_files = Except.ok ["en"] ∧
    (["en"] : List String) ≠ [] :=
  ⟨rfl, by decide⟩

/-- C4 (amended): for a non-empty explicit language list, construction fails
with `NotSupportedLanguage` — building no filter and no corpus — whenever some
requested code is not among the discovered set, and otherwise yields the
filter restricted to exactly the requested list (with the corpus built from
it); an empty list is falsy in Python and imposes no restriction. -/
theorem c4_init_restriction (discovered ls : List String) (proc : String → String)
    (load : String → Option (List String)) (hne : ls ≠ []) :
    ((∀ i ∈ ls, i ∈ discovered) →
       init discovered (some ls) proc load =
         Except.ok ⟨proc, ls, initialize_bad_words ls load proc⟩) ∧
    ((¬ ∀ i ∈ ls, i ∈ discovered) →
       init discovered (some ls) proc load = Except.error NotSupportedLanguage.mk) := by
  constructor
  · intro h
    simp only [init]
    rw [if_neg hne, if_pos h]
  · intro h
    simp only [init]
    rw [if_neg hne, if_neg h]

theorem c4_init_restriction_witness :
    (["en"] : List String) ≠ [] ∧
    (((∀ i ∈ (["en"] : List String), i ∈ (["en", "de"] : List String)) →
        init ["en", "de"] (some ["en"]) (process_text defaultTP) (fun _ => none) =
          Except.ok ⟨process_text defaultTP, ["en"],
            initialize_bad_words ["en"] (fun _ => none) (process_text defaultTP)⟩) ∧
     ((¬ ∀ i ∈ (["en"] : List String), i ∈ (["en", "de"] : List String)) →
        init ["en", "de"] (some ["en"]) (process_text defaultTP) (fun _ => none) =
          Except.error NotSupportedLanguage.mk)) :=
  ⟨by decide,
   c4_init_restriction ["en", "de"] ["en"] (process_text defaultTP) (fun _ => none)
     (by decide)⟩

theorem applyOps_mem (b : String) (ops : List FilterOp) :
    ∀ f : ProfanityFilter, b ∈ f.bad_words → b ∈ (applyOps f ops).bad_words := by
  induction ops with
  | nil =>
    intro f hb
    exact hb
  | cons op rest ih =>
    intro f hb
    show b ∈ (applyOps (applyOp f op) rest).bad_words
    cases op with
    | addCall ws2 => exact ih (add_words f ws2) (Finset.mem_union_left _ hb)
    | queryCall text mt rc => exact ih f hb

/-- C7: the corpus never shrinks over the filter's lifetime: `add_words` only
adds (the old corpus is a subset of the new one), re-adding the same words
changes nothing (duplicates collapse under set semantics), and every corpus
entry survives any sequence of `add_words` and `filter_text` calls. -/
theorem c7_corpus_never_shrinks (f : ProfanityFilter) (ws : List String)
    (b : String) (ops : List FilterOp) (hb : b ∈ f.bad_words) :
    f.bad_words ⊆ (add_words f ws).bad_words ∧
    add_words (add_words f ws) ws = add_words f ws ∧
    b ∈ (applyOps f ops).bad_words := by
  refine ⟨Finset.subset_union_left, ?_, applyOps_mem b ops f hb⟩
  simp [add_words, Finset.union_assoc]

theorem c7_corpus_never_shrinks_witness :
    "badword" ∈ pfNorm.bad_words ∧
    (pfNorm.bad_words ⊆ (add_words pfNorm ["newword"]).bad_words ∧
     add_words (add_words pfNorm ["newword"]) ["newword"] = add_words pfNorm ["newword"] ∧
     "badword" ∈ (applyOps pfNorm
       [FilterOp.addCall ["x"], FilterOp.queryCall "hello" none none]).bad_words) :=
  ⟨by decide,
   c7_corpus_never_shrinks pfNorm ["newword"] "badword"
     [FilterOp.addCall ["x"], FilterOp.queryCall "hello" none none] (by decide)⟩

/-! Idempotence of the modelled normalizer.  Every substitution table only
produces canonical characters, so a second pass over already-processed text
changes nothing. -/

/-- The four substitution tables of the pipeline. -/
def coreTable (t : List (Char × Char)) : Prop :=
  t = lowerTable ∨ t = translitTable ∨ t = homoglyphTable ∨ t = diacriticTable

theorem lowerTable_good : tableGood lowerTable := by
  unfold tableGood
  decide

theorem translitTable_good : tableGood translitTable := by
  unfold tableGood
  decide

theorem homoglyphTable_good : tableGood homoglyphTable := by
  unfold tableGood
  decide

theorem diacriticTable_good : tableGood diacriticTable := by
  unfold tableGood
  decide

theorem canonChar_spec (c : Char) (h : canonChar c = true) :
    applyTable lowerTable c = c ∧ applyTable translitTable c = c ∧
    applyTable homoglyphTable c = c ∧ applyTable diacriticTable c = c ∧
    isWs c = false ∧ isPunct c = false := by
  simp only [canonChar, keepChar, Bool.and_eq_true, beq_iff_eq,
    Bool.not_eq_true'] at h
  tauto

theorem applyTable_out (t : List (Char × Char)) (hg : tableGood t) (c : Char) :
    applyTable t c = c ∨ canonChar (applyTable t c) = true := by
  unfold applyTable
  cases hfind : t.find? (fun p => p.1 == c) with
  | none => exact Or.inl rfl
  | some p => exact Or.inr (hg p (List.mem_of_find?_eq_some hfind))

theorem canon_fixed (t : List (Char × Char)) (ht : coreTable t) (c : Char)
    (h : canonChar c = true) : applyTable t c = c := by
  obtain ⟨h1, h2, h3, h4, _, _⟩ := canonChar_spec c h
  rcases ht with rfl | rfl | rfl | rfl <;> assumption

theorem applyTable_idem (t : List (Char × Char)) (hg : tableGood t)
    (ht : coreTable t) (c : Char) :
    applyTable t (applyTable t c) = applyTable t c := by
  rcases applyTable_out t hg c with h | h
  · rw [h, h]
  · exact canon_fixed t ht _ h

theorem applyTable_pres_fix (t t2 : List (Char × Char)) (hg : tableGood t)
    (ht2 : coreTable t2) (c : Char) (h : applyTable t2 c = c) :
    applyTable t2 (applyTable t c) = applyTable t c := by
  rcases applyTable_out t hg c with h1 | h1
  · rw [h1, h]
  · exact canon_fixed t2 ht2 _ h1

theorem applyTable_keep (t : List (Char × Char)) (hg : tableGood t) (c : Char)
    (h : keepChar c = true) : keepChar (applyTable t c) = true := by
  rcases applyTable_out t hg c with h1 | h1
  · rw [h1]
    exact h
  · obtain ⟨_, _, _, _, hw, hp⟩ := canonChar_spec _ h1
    simp [keepChar, hw, hp]

theorem applyTable_notWs (t : List (Char × Char)) (hg : tableGood t) (c : Char)
    (h : isWs c = false) : isWs (applyTable t c) = false := by
  rcases applyTable_out t hg c with h1 | h1
  · rw [h1]
    exact h
  · exact (canonChar_spec _ h1).2.2.2.2.1

theorem map_fix {m : Char → Char} {l : List Char} (h : ∀ c ∈ l, m c = c) :
    l.map m = l := by
  induction l with
  | nil => rfl
  | cons a rest ih =>
    simp only [List.map_cons, h a (List.mem_cons_self a rest),
      ih (fun c hc => h c (List.mem_cons_of_mem a hc))]

theorem mem_map_fix (t : List (Char × Char)) (hg : tableGood t) (ht : coreTable t)
    (l : List Char) : ∀ c ∈ l.map (applyTable t), applyTable t c = c := by
  intro c hc
  obtain ⟨d, _, rfl⟩ := List.mem_map.mp hc
  exact applyTable_idem t hg ht d

theorem mem_map_pres (t t2 : List (Char × Char)) (hg : tableGood t)
    (ht2 : coreTable t2) (l : List Char) (h : ∀ c ∈ l, applyTable t2 c = c) :
    ∀ c ∈ l.map (applyTable t), applyTable t2 c = c := by
  intro c hc
  obtain ⟨d, hd, rfl⟩ := List.mem_map.mp hc
  exact applyTable_pres_fix t t2 hg ht2 d (h d hd)

theorem collapseAdj_subset (l : List Char) : ∀ c ∈ collapseAdj l, c ∈ l := by
  induction l using collapseAdj.induct with
  | case1 =>
    intro c hc
    cases hc
  | case2 d =>
    intro c hc
    exact hc
  | case3 b rest ih =>
    intro c hc
    rw [show collapseAdj (b :: b :: rest) = collapseAdj (b :: rest) by
      simp [collapseAdj]] at hc
    exact List.mem_cons_of_mem b (ih c hc)
  | case4 a b rest hab ih =>
    intro c hc
    rw [show collapseAdj (a :: b :: rest) = a :: collapseAdj (b :: rest) by
      simp [collapseAdj, hab]] at hc
    rcases List.mem_cons.mp hc with h | h
    · exact h ▸ List.mem_cons_self a _
    · exact List.mem_cons_of_mem a (ih c h)

theorem collapseAdj_head (x : Char) (xs : List Char) :
    ∃ t2, collapseAdj (x :: xs) = x :: t2 := by
  induction xs generalizing x with
  | nil => exact ⟨[], rfl⟩
  | cons y ys ih =>
    by_cases hxy : x = y
    · subst hxy
      obtain ⟨t2, ht⟩ := ih x
      exact ⟨t2, by rw [collapseAdj, if_pos rfl, ht]⟩
    · exact ⟨collapseAdj (y :: ys), by rw [collapseAdj, if_neg hxy]⟩

theorem collapseAdj_idem (l : List Char) : collapseAdj (collapseAdj l) = collapseAdj l := by
  induction l using collapseAdj.induct with
  | case1 => rfl
  | case2 d => rfl
  | case3 b rest ih =>
    rw [show collapseAdj (b :: b :: rest) = collapseAdj (b :: rest) by
      simp [collapseAdj]]
    exact ih
  | case4 a b rest hab ih =>
    obtain ⟨t2, ht⟩ := collapseAdj_head b rest
    have hbt : collapseAdj (b :: t2) = b :: t2 := by
      have h2 := ih
      rw [ht] at h2
      exact h2
    rw [show collapseAdj (a :: b :: rest) = a :: collapseAdj (b :: rest) by
      simp [collapseAdj, hab]]
    rw [ht]
    rw [show collapseAdj (a :: b :: t2) = a :: collapseAdj (b :: t2) by
      simp [collapseAdj, hab]]
    rw [hbt]

/-- A list with no whitespace at either end (trivially so when empty). -/
def NoEdgeWs (l : List Char) : Prop :=
  (∀ c, l.head? = some c → isWs c = false) ∧
  (∀ c, l.getLast? = some c → isWs c = false)

theorem head?_dropWhile_not (p : Char → Bool) (l : List Char) :
    ∀ c, (List.dropWhile p l).head? = some c → p c = false := by
  induction l with
  | nil =>
    intro c h
    cases h
  | cons a rest ih =>
    intro c h
    by_cases hp : p a = true
    · rw [List.dropWhile_cons, if_pos hp] at h
      exact ih c h
    · rw [List.dropWhile_cons, if_neg hp] at h
      cases h
      simpa using hp

theorem dropWhile_eq_self_of_head (p : Char → Bool) (l : List Char)
    (h : ∀ c, l.head? = some c → p c = false) : List.dropWhile p l = l := by
  cases l with
  | nil => rfl
  | cons a rest =>
    have ha := h a rfl
    rw [List.dropWhile_cons, if_neg (by simp [ha])]

theorem trimWs_eq_self (l : List Char) (h : NoEdgeWs l) : trimWs l = l := by
  obtain ⟨hh, hl⟩ := h
  unfold trimWs
  rw [dropWhile_eq_self_of_head isWs l hh]
  rw [dropWhile_eq_self_of_head isWs l.reverse
    (fun c hc => hl c (by rwa [List.head?_reverse] at hc))]
  exact List.reverse_reverse l

theorem getLast?_dropWhile (p : Char → Bool) (l : List Char)
    (hne : List.dropWhile p l ≠ []) :
    (List.dropWhile p l).getLast? = l.getLast? := by
  conv_rhs => rw [← List.takeWhile_append_dropWhile (p := p) (l := l)]
  rw [List.getLast?_append_of_ne_nil _ hne]

theorem noEdgeWs_trimWs (l : List Char) : NoEdgeWs (trimWs l) := by
  unfold trimWs
  constructor
  · intro c hc
    rw [List.head?_reverse] at hc
    have hne : List.dropWhile isWs (List.dropWhile isWs l).reverse ≠ [] := by
      intro hemp
      rw [hemp] at hc
      cases hc
    rw [getLast?_dropWhile isWs (List.dropWhile isWs l).reverse hne] at hc
    rw [List.getLast?_reverse] at hc
    exact head?_dropWhile_not isWs l c hc
  · intro c hc
    rw [List.getLast?_reverse] at hc
    exact head?_dropWhile_not isWs (List.dropWhile isWs l).reverse c hc

theorem noEdgeWs_of_noWs (l : List Char) (h : ∀ c ∈ l, isWs c = false) :
    NoEdgeWs l := by
  constructor
  · intro c hc
    exact h c (List.mem_of_mem_head? (by rw [hc]; rfl))
  · intro c hc
    exact h c (List.mem_of_getLast?_eq_some hc)

theorem noEdgeWs_map (m : Char → Char) (l : List Char)
    (hm : ∀ c, isWs c = false → isWs (m c) = false) (h : NoEdgeWs l) :
    NoEdgeWs (l.map m) := by
  obtain ⟨hh, hl⟩ := h
  constructor
  · intro c hc
    rw [List.head?_map] at hc
    cases hd : l.head? with
    | none =>
      rw [hd] at hc
      cases hc
    | some d =>
      rw [hd] at hc
      cases hc
      exact hm d (hh d hd)
  · intro c hc
    rw [List.getLast?_map] at hc
    cases hd : l.getLast? with
    | none =>
      rw [hd] at hc
      cases hc
    | some d =>
      rw [hd] at hc
      cases hc
      exact hm d (hl d hd)

theorem mem_trimWs (l : List Char) (c : Char) (h : c ∈ trimWs l) : c ∈ l := by
  unfold trimWs at h
  rw [List.mem_reverse] at h
  have h2 := (List.dropWhile_sublist isWs).subset h
  rw [List.mem_reverse] at h2
  exact (List.dropWhile_sublist isWs).subset h2

/-- Character-level fixedness under every enabled capability. -/
def stageFix (tp : TextProcessor) (c : Char) : Prop :=
  (tp.processing_normalize_text = true → applyTable lowerTable c = c) ∧
  (tp.processing_transliterate = true → applyTable translitTable c = c) ∧
  (tp.processing_replace_homoglyphs = true → applyTable homoglyphTable c = c) ∧
  (tp.processing_aggressive_normalize = true →
    applyTable diacriticTable c = c ∧ keepChar c = true)

/-- What a processed text looks like: every character is fixed by every
enabled stage, it is trimmed when basic normalization is on, and it is
collapse-free when aggressive normalization is on. -/
def ProcOut (tp : TextProcessor) (l : List Char) : Prop :=
  (∀ c ∈ l, stageFix tp c) ∧
  (tp.processing_normalize_text = true → NoEdgeWs l) ∧
  (tp.processing_aggressive_normalize = true → collapseAdj l = l)

theorem processList_fix (tp : TextProcessor) (l : List Char) (h : ProcOut tp l) :
    processList tp l = l := by
  obtain ⟨hfix, hedge, hcoll⟩ := h
  have h1 : normStage tp.processing_normalize_text l = l := by
    simp only [normStage]
    cases hn : tp.processing_normalize_text with
    | false => rw [if_neg (by simp)]
    | true =>
      rw [if_pos rfl]
      rw [map_fix (fun c hc => (hfix c hc).1 hn)]
      exact trimWs_eq_self l (hedge hn)
  have h2 : translitStage tp.processing_transliterate l = l := by
    simp only [translitStage]
    cases ht : tp.processing_transliterate with
    | false => rw [if_neg (by simp)]
    | true =>
      rw [if_pos rfl]
      exact map_fix (fun c hc => (hfix c hc).2.1 ht)
  have h3 : homoglyphStage tp.processing_replace_homoglyphs l = l := by
    simp only [homoglyphStage]
    cases hh : tp.processing_replace_homoglyphs with
    | false => rw [if_neg (by simp)]
    | true =>
      rw [if_pos rfl]
      exact map_fix (fun c hc => (hfix c hc).2.2.1 hh)
  have h4 : aggressiveStage tp.processing_aggressive_normalize l = l := by
    simp only [aggressiveStage]
    cases ha : tp.processing_aggressive_normalize with
    | false => rw [if_neg (by simp)]
    | true =>
      rw [if_pos rfl]
      rw [map_fix (fun c hc => ((hfix c hc).2.2.2 ha).1)]
      rw [List.filter_eq_self.mpr (fun c hc => ((hfix c hc).2.2.2 ha).2)]
      exact hcoll ha
  show aggressiveStage tp.processing_aggressive_normalize
    (homoglyphStage tp.processing_replace_homoglyphs
      (translitStage tp.processing_transliterate
        (normStage tp.processing_normalize_text l))) = l
  rw [h1, h2, h3, h4]

theorem procOut_processList (tp : TextProcessor) (l : List Char) :
    ProcOut tp (processList tp l) := by
  unfold processList
  have s1 : tp.processing_normalize_text = true →
      (∀ c ∈ normStage tp.processing_normalize_text l,
         applyTable lowerTable c = c) ∧
      NoEdgeWs (normStage tp.processing_normalize_text l) := by
    intro hn
    simp only [normStage, hn, if_true]
    constructor
    · intro c hc
      exact mem_map_fix lowerTable lowerTable_good (Or.inl rfl) l c (mem_trimWs _ c hc)
    · exact noEdgeWs_trimWs _
  set L1 := normStage tp.processing_normalize_text l with hL1
  have s2fix : tp.processing_transliterate = true →
      ∀ c ∈ translitStage tp.processing_transliterate L1,
        applyTable translitTable c = c := by
    intro ht
    simp only [translitStage, ht, if_true]
    exact mem_map_fix translitTable translitTable_good (Or.inr (Or.inl rfl)) L1
  have s2pres : ∀ t2, coreTable t2 → (∀ c ∈ L1, applyTable t2 c = c) →
      ∀ c ∈ translitStage tp.processing_transliterate L1, applyTable t2 c = c := by
    intro t2 ht2 hfx
    simp only [translitStage]
    cases ht : tp.processing_transliterate with
    | false =>
      rw [if_neg (by simp)]
      exact hfx
    | true =>
      rw [if_pos rfl]
      exact mem_map_pres translitTable t2 translitTable_good ht2 L1 hfx
  have s2edge : NoEdgeWs L1 →
      NoEdgeWs (translitStage tp.processing_transliterate L1) := by
    intro he
    simp only [translitStage]
    cases ht : tp.processing_transliterate with
    | false =>
      rw [if_neg (by simp)]
      exact he
    | true =>
      rw [if_pos rfl]
      exact noEdgeWs_map _ L1 (applyTable_notWs translitTable translitTable_good) he
  set L2 := translitStage tp.processing_transliterate L1 with hL2
  have s3fix : tp.processing_replace_homoglyphs = true →
      ∀ c ∈ homoglyphStage tp.processing_replace_homoglyphs L2,
        applyTable homoglyphTable c = c := by
    intro hh
    simp only [homoglyphStage, hh, if_true]
    exact mem_map_fix homoglyphTable homoglyphTable_good (Or.inr (Or.inr (Or.inl rfl))) L2
  have s3pres : ∀ t2, coreTable t2 → (∀ c ∈ L2, applyTable t2 c = c) →
      ∀ c ∈ homoglyphStage tp.processing_replace_homoglyphs L2, applyTable t2 c = c := by
    intro t2 ht2 hfx
    simp only [homoglyphStage]
    cases hh : tp.processing_replace_homoglyphs with
    | false =>
      rw [if_neg (by simp)]
      exact hfx
    | true =>
      rw [if_pos rfl]
      exact mem_map_pres homoglyphTable t2 homoglyphTable_good ht2 L2 hfx
  have s3edge : NoEdgeWs L2 →
      NoEdgeWs (homoglyphStage tp.processing_replace_homoglyphs L2) := by
    intro he
    simp only [homoglyphStage]
    cases hh : tp.processing_replace_homoglyphs with
    | false =>
      rw [if_neg (by simp)]
      exact he
    | true =>
      rw [if_pos rfl]
      exact noEdgeWs_map _ L2 (applyTable_notWs homoglyphTable homoglyphTable_good) he
  set L3 := homoglyphStage tp.processing_replace_homoglyphs L2 with hL3
  have s4pres : ∀ t2, coreTable t2 → (∀ c ∈ L3, applyTable t2 c = c) →
      ∀ c ∈ aggressiveStage tp.processing_aggressive_normalize L3,
        applyTable t2 c = c := by
    intro t2 ht2 hfx
    simp only [aggressiveStage]
    cases ha : tp.processing_aggressive_normalize with
    | false =>
      rw [if_neg (by simp)]
      exact hfx
    | true =>
      rw [if_pos rfl]
      intro c hc
      have hc2 := collapseAdj_subset _ c hc
      rw [List.mem_filter] at hc2
      exact mem_map_pres diacriticTable t2 diacriticTable_good ht2 L3 hfx c hc2.1
  have s4dia : tp.processing_aggressive_normalize = true →
      ∀ c ∈ aggressiveStage tp.processing_aggressive_normalize L3,
        applyTable diacriticTable c = c ∧ keepChar c = true := by
    intro ha
    simp only [aggressiveStage, ha, if_true]
    intro c hc
    have hc2 := collapseAdj_subset _ c hc
    rw [List.mem_filter] at hc2
    exact ⟨mem_map_fix diacriticTable diacriticTable_good
      (Or.inr (Or.inr (Or.inr rfl))) L3 c hc2.1, hc2.2⟩
  have s4coll : tp.processing_aggressive_normalize = true →
      collapseAdj (aggressiveStage tp.processing_aggressive_normalize L3) =
        aggressiveStage tp.processing_aggressive_normalize L3 := by
    intro ha
    simp only [aggressiveStage, ha, if_true]
    exact collapseAdj_idem _
  have s4edge : NoEdgeWs L3 →
      NoEdgeWs (aggressiveStage tp.processing_aggressive_normalize L3) := by
    intro he
    simp only [aggressiveStage]
    cases ha : tp.processing_aggressive_normalize with
    | false =>
      rw [if_neg (by simp)]
      exact he
    | true =>
      rw [if_pos rfl]
      apply noEdgeWs_of_noWs
      intro c hc
      have hc2 := collapseAdj_subset _ c hc
      rw [List.mem_filter] at hc2
      have hk := hc2.2
      simp only [keepChar, Bool.and_eq_true, Bool.not_eq_true'] at hk
      exact hk.1
  unfold ProcOut
  refine ⟨?_, ?_, ?_⟩
  · intro c hc
    unfold stageFix
    refine ⟨?_, ?_, ?_, ?_⟩
    · intro hn
      exact s4pres lowerTable (Or.inl rfl)
        (s3pres lowerTable (Or.inl rfl)
          (s2pres lowerTable (Or.inl rfl) (s1 hn).1)) c hc
    · intro ht
      exact s4pres translitTable (Or.inr (Or.inl rfl))
        (s3pres translitTable (Or.inr (Or.inl rfl)) (s2fix ht)) c hc
    · intro hh
      exact s4pres homoglyphTable (Or.inr (Or.inr (Or.inl rfl))) (s3fix hh) c hc
    · intro ha
      exact s4dia ha c hc
  · intro hn
    exact s4edge (s3edge (s2edge (s1 hn).2))
  · intro ha
    exact s4coll ha

/-- C8: the modelled normalizer is idempotent for every configuration and
every string, and deterministic (equal inputs give equal outputs). -/
theorem c8_process_text_idempotent (tp : TextProcessor) (s t : String)
    (hst : s = t) :
    process_text tp (process_text tp s) = process_text tp s ∧
    process_text tp s = process_text tp t := by
  constructor
  · show String.mk (processList tp (processList tp s.data)) = String.mk (processList tp s.data)
    rw [processList_fix tp (processList tp s.data) (procOut_processList tp s.data)]
  · rw [hst]

theorem c8_process_text_idempotent_witness :
    ("Mérde!" : String) = "Mérde!" ∧
    (process_text defaultTP (process_text defaultTP "Mérde!") =
       process_text defaultTP "Mérde!" ∧
     process_text defaultTP "Mérde!" = process_text defaultTP "Mérde!") :=
  ⟨rfl, c8_process_text_idempotent defaultTP "Mérde!" "Mérde!" rfl⟩
